import Mathlib

/-!
Verification of the gke-mcp extraction/filtering core.

Two components are embedded here, translated from the Go sources:

* the changelog line filter `keepOnlyChanges` from
  `pkg/tools/k8schangelog/k8schangelog.go`, and
* the GKE release-notes HTML extraction pass `getGkeReleaseNotes`
  (the goquery selection / removal / text-collection pipeline).

Strings are embedded as `List Char`; the Go functions `strings.Split(s, "\n")`,
`strings.HasPrefix` and the anchored regular expression
`^# v\d\.\d+\.\d+` are given executable structural definitions below.
-/

namespace GkeMcp

/-- Go `strings.HasPrefix line pre` on char lists: first argument the string,
second the candidate leading segment. -/
def beginsWith : List Char → List Char → Bool
  | _, [] => true
  | [], _ :: _ => false
  | c :: cs, p :: ps => c == p && beginsWith cs ps

/-- Go `strings.HasSuffix s suf` on char lists. -/
def finishesWith (s suf : List Char) : Bool :=
  beginsWith s.reverse suf.reverse

/-- Whether `pat` occurs contiguously somewhere inside `s`. -/
def containsSub (pat : List Char) : List Char → Bool
  | [] => beginsWith [] pat
  | c :: rest => beginsWith (c :: rest) pat || containsSub pat rest

/-- Go `strings.Split(s, "\n")`: the list of `'\n'`-separated segments;
the empty string splits to `[""]`, and a trailing separator produces a
trailing empty segment. -/
def splitLines : List Char → List (List Char)
  | [] => [[]]
  | c :: rest =>
    if c == '\n' then [] :: splitLines rest
    else
      match splitLines rest with
      | [] => [[c]]
      | l :: ls => (c :: l) :: ls

/-- The tail `\d+\.\d+` of the changelog version regular expression,
matched at the start of `l` (RE2 semantics: a maximal digit run, a literal
dot, then at least one digit). -/
def matchMinorPatch (l : List Char) : Bool :=
  !(l.takeWhile Char.isDigit).isEmpty &&
    (match l.dropWhile Char.isDigit with
     | '.' :: c :: _ => c.isDigit
     | _ => false)

/-- `changelogVersionLineRegexp.MatchString line` for the Go regexp
`^# v\d\.\d+\.\d+`: a literal `"# v"`, a single digit, a dot, and then
`\d+\.\d+`; anything may follow. -/
def changelogVersionLineRegexp (line : List Char) : Bool :=
  match line with
  | '#' :: ' ' :: 'v' :: d :: '.' :: rest => d.isDigit && matchMinorPatch rest
  | _ => false

/-- The Go package-level `ignoredSectionPrefixes` slice. -/
def ignoredSectionPrefixes : List (List Char) :=
  ["## Dependencies".toList, "## Downloads for".toList]

/-- The inner loop test `strings.HasPrefix(line, prefix)` over all ignored
section leading segments. -/
def isIgnoredSectionHeader (line : List Char) : Bool :=
  ignoredSectionPrefixes.any (fun p => beginsWith line p)

/-- The exit test of the ignored-section state:
`strings.HasPrefix(line, "# ") || strings.HasPrefix(line, "## ")`. -/
def isTopTwoHeading (line : List Char) : Bool :=
  beginsWith line "# ".toList || beginsWith line "## ".toList

/-- The two mutable booleans of the `keepOnlyChanges` loop. -/
structure FilterState where
  hasMetTheFirstVersionHeading : Bool
  isInIgnoredSection : Bool
deriving DecidableEq, Repr

/-- One iteration of the `keepOnlyChanges` loop body: given the state before
a line, the state after it together with the emitted line, if any.  The
branches mirror the Go loop in order: the seeking-`continue`, the
ignored-header `continue`, the in-ignored-section skip, and emission. -/
def processLine (st : FilterState) (line : List Char) : FilterState × Option (List Char) :=
  if !st.hasMetTheFirstVersionHeading && !changelogVersionLineRegexp line then
    (st, none)
  else if isIgnoredSectionHeader line then
    (⟨true, true⟩, none)
  else if st.isInIgnoredSection && !isTopTwoHeading line then
    (⟨true, true⟩, none)
  else
    (⟨true, false⟩, some line)

/-- The `keepOnlyChanges` loop over the remaining lines: the emitted lines,
in order. -/
def processLines (st : FilterState) : List (List Char) → List (List Char)
  | [] => []
  | line :: rest =>
    (processLine st line).2.toList ++ processLines (processLine st line).1 rest

/-- The filter state after the loop has consumed the given lines. -/
def stateAfter (st : FilterState) : List (List Char) → FilterState
  | [] => st
  | line :: rest => stateAfter (processLine st line).1 rest

/-- `keepOnlyChanges` from `k8schangelog.go`: split on `'\n'`, run the
two-flag loop starting with both booleans false, and write each emitted
line followed by `"\n"` to the result builder. -/
def keepOnlyChanges (changelog : List Char) : List Char :=
  ((processLines ⟨false, false⟩ (splitLines changelog)).map (fun l => l ++ ['\n'])).flatten

/-- The RE2 class `\s`: `[\t\n\f\r ]`. -/
def isRegexWhitespace (c : Char) : Bool :=
  c == ' ' || c == '\t' || c == '\n' || c == '\x0c' || c == '\r'

/-- The version-heading pattern as the specification states it:
`^#\s*v?\d+\.\d+\.\d+` — a `#`, any amount of whitespace, an optional `v`,
and three dot-separated components of one or more digits each.  This
definition follows the words of the spec and exists only to be compared with
`changelogVersionLineRegexp`, which embeds the source. -/
def specVersionLineRegexp (line : List Char) : Bool :=
  match line with
  | '#' :: rest =>
    let afterWs := rest.dropWhile isRegexWhitespace
    let afterV := match afterWs with
      | 'v' :: r => r
      | _ => afterWs
    !(afterV.takeWhile Char.isDigit).isEmpty &&
      (match afterV.dropWhile Char.isDigit with
       | '.' :: l2 => matchMinorPatch l2
       | _ => false)
  | _ => false

/-!
HTML extractor: embedding of `getGkeReleaseNotes` (the goquery pipeline
`Find("[data-text$=…]").Parent().Parent().Remove()` twice, then
`Find(".releases").Each(collect text)`).  The parsed document is a forest
of nodes under an unremovable document root; the goquery operations on it
are embedded by their documented semantics: an attribute-suffix selector
matches an element whose attribute value ends with the suffix, removing
the parent-of-parent of every match deletes exactly the nodes that have a
matching grandchild (a match with fewer than two element ancestors causes
no deletion), and `.releases` matches elements whose `class` attribute
contains the word `releases`, collected in document (pre-)order.
-/

mutual
inductive HtmlNode where
  | text (s : List Char)
  | elem (tag : List Char) (attrs : List (List Char × List Char)) (children : HtmlForest)
inductive HtmlForest where
  | nil
  | cons (n : HtmlNode) (f : HtmlForest)
end

/-- First value bound to the given attribute name, if any. -/
def getAttr (name : List Char) : List (List Char × List Char) → Option (List Char)
  | [] => none
  | (k, v) :: rest => if k == name then some v else getAttr name rest

/-- The goquery selector `[data-text$="suf"]`: an element whose `data-text`
attribute value ends with `suf`.  Text nodes match no selector. -/
def matchesDataTextSuffix (suf : List Char) : HtmlNode → Bool
  | .text _ => false
  | .elem _ attrs _ =>
    match getAttr "data-text".toList attrs with
    | some v => finishesWith v suf
    | none => false

/-- HTML whitespace, for splitting a `class` attribute into words. -/
def isHtmlSpace (c : Char) : Bool :=
  c == ' ' || c == '\t' || c == '\n' || c == '\r'

/-- Split on HTML whitespace (empty words appear between adjacent
separators; membership tests ignore them since a class name is nonempty). -/
def splitOnSpaces : List Char → List (List Char)
  | [] => [[]]
  | c :: rest =>
    if isHtmlSpace c then [] :: splitOnSpaces rest
    else
      match splitOnSpaces rest with
      | [] => [[c]]
      | l :: ls => (c :: l) :: ls

/-- The goquery class selector `.cls`: an element whose `class` attribute
contains the word `cls`. -/
def hasClassWord (cls : List Char) : HtmlNode → Bool
  | .text _ => false
  | .elem _ attrs _ =>
    match getAttr "class".toList attrs with
    | some v => (splitOnSpaces v).any (fun w => w == cls)
    | none => false

/-- Does any node of the forest satisfy `p`? -/
def forestAny (p : HtmlNode → Bool) : HtmlForest → Bool
  | .nil => false
  | .cons n f => p n || forestAny p f

/-- Does any child of `n` satisfy `p`? -/
def childMatches (p : HtmlNode → Bool) : HtmlNode → Bool
  | .text _ => false
  | .elem _ _ cs => forestAny p cs

/-- Does any grandchild of `n` satisfy `p`?  These are exactly the nodes
deleted by `Find(p).Parent().Parent().Remove()`: `n` is the
parent-of-parent of some node matched by `p`. -/
def hasMatchingGrandchild (p : HtmlNode → Bool) (n : HtmlNode) : Bool :=
  childMatches (childMatches p) n

mutual
/-- Apply one exclusion rule below a surviving node. -/
def pruneNode (p : HtmlNode → Bool) : HtmlNode → HtmlNode
  | .text s => .text s
  | .elem t a cs => .elem t a (pruneForest p cs)
/-- Apply one exclusion rule to a forest: delete every node that is the
parent-of-parent of a `p`-match, everywhere in the forest.  A `p`-match
whose ancestor chain is shorter than two nodes deletes nothing. -/
def pruneForest (p : HtmlNode → Bool) : HtmlForest → HtmlForest
  | .nil => .nil
  | .cons n f =>
    if hasMatchingGrandchild p n then pruneForest p f
    else .cons (pruneNode p n) (pruneForest p f)
end

mutual
/-- All nodes weakly below `n` satisfying `q`, in document (pre-)order. -/
def findNodes (q : HtmlNode → Bool) : HtmlNode → List HtmlNode
  | .text s => if q (.text s) then [.text s] else []
  | .elem t a cs => (if q (.elem t a cs) then [.elem t a cs] else []) ++ findForest q cs
/-- All nodes of the forest satisfying `q`, in document (pre-)order. -/
def findForest (q : HtmlNode → Bool) : HtmlForest → List HtmlNode
  | .nil => []
  | .cons n f => findNodes q n ++ findForest q f
end

mutual
/-- goquery `Selection.Text()`: concatenated text of all descendants. -/
def textContent : HtmlNode → List Char
  | .text s => s
  | .elem _ _ cs => textContentF cs
def textContentF : HtmlForest → List Char
  | .nil => []
  | .cons n f => textContent n ++ textContentF f
end

mutual
/-- Every subtree of `n`, itself included. -/
def subtrees : HtmlNode → List HtmlNode
  | .text s => [.text s]
  | .elem t a cs => .elem t a cs :: subtreesF cs
/-- Every subtree of every tree of the forest. -/
def subtreesF : HtmlForest → List HtmlNode
  | .nil => []
  | .cons n f => subtrees n ++ subtreesF f
end

/-- Anchor selector of the first exclusion rule:
`[data-text$="Version updates"]`. -/
def versionUpdatesSel : HtmlNode → Bool :=
  matchesDataTextSuffix "Version updates".toList

/-- Anchor selector of the second exclusion rule:
`[data-text$="Security updates"]`. -/
def securityUpdatesSel : HtmlNode → Bool :=
  matchesDataTextSuffix "Security updates".toList

/-- The release-block selector `.releases`. -/
def releasesSel : HtmlNode → Bool :=
  hasClassWord "releases".toList

/-- The two `Remove()` passes of `getGkeReleaseNotes`, in source order. -/
def pruneAll (doc : HtmlForest) : HtmlForest :=
  pruneForest securityUpdatesSel (pruneForest versionUpdatesSel doc)

/-- The extraction pipeline of `getGkeReleaseNotes`: delete the
parent-of-parent subtrees anchored at the two `data-text` selectors, then
concatenate the text of all remaining `.releases` nodes in document
order. -/
def getGkeReleaseNotes (doc : HtmlForest) : List Char :=
  ((findForest releasesSel (pruneAll doc)).map textContent).flatten

/-- A release block outside any excluded subtree, with text `AAA`. -/
def exampleReleaseA : HtmlNode :=
  .elem "div".toList [("class".toList, "releases".toList)]
    (.cons (.text "AAA".toList) .nil)

/-- An exclusion-anchor node: its `data-text` ends with `Version updates`. -/
def exampleAnchor : HtmlNode :=
  .elem "p".toList [("data-text".toList, "GKE Version updates".toList)] .nil

/-- A release block with text `BBB`, to be placed inside a deleted
subtree. -/
def exampleReleaseB : HtmlNode :=
  .elem "div".toList [("class".toList, "releases".toList)]
    (.cons (.text "BBB".toList) .nil)

/-- The grandparent of `exampleAnchor`; it also contains
`exampleReleaseB`, so the whole group - release block included - is
deleted by the first exclusion rule. -/
def exampleGrandparent : HtmlNode :=
  .elem "div".toList []
    (.cons (.elem "div".toList [] (.cons exampleAnchor .nil))
      (.cons exampleReleaseB .nil))

/-- The concrete scenario of the spec: two release nodes, one of them inside
the grandparent subtree of an exclusion anchor. -/
def exampleDoc : HtmlForest :=
  .cons exampleReleaseA (.cons exampleGrandparent .nil)

/-- Anchors with fewer than two proper ancestors: one at top level and one
at depth one.  Neither gives any node a matching grandchild. -/
def shallowAnchorDoc : HtmlForest :=
  .cons exampleAnchor
    (.cons (.elem "div".toList [] (.cons exampleAnchor .nil))
      (.cons exampleReleaseA .nil))

/-- A document without any release block. -/
def noReleasesDoc : HtmlForest :=
  .cons (.elem "div".toList [] (.cons (.text "hi".toList) .nil)) .nil

/-! Helper lemmas about the changelog filter. -/

theorem beginsWith_nil (s : List Char) : beginsWith s [] = true := by
  cases s <;> rfl

theorem beginsWith_of_append {s : List Char} (p q : List Char)
    (h : beginsWith s (p ++ q) = true) : beginsWith s p = true := by
  induction p generalizing s with
  | nil => exact beginsWith_nil s
  | cons c cs ih =>
    cases s with
    | nil => simp [beginsWith] at h
    | cons a as =>
      simp only [List.cons_append, beginsWith, Bool.and_eq_true] at h ⊢
      exact ⟨h.1, ih h.2⟩

theorem beginsWith_two_hash {l : List Char} (h : beginsWith l "## ".toList = true) :
    ∃ cs, l = '#' :: '#' :: ' ' :: cs := by
  match l with
  | [] => simp [beginsWith] at h
  | [_] => simp [beginsWith, show "## ".toList = ['#', '#', ' '] from rfl] at h
  | [_, _] => simp [beginsWith, show "## ".toList = ['#', '#', ' '] from rfl] at h
  | c1 :: c2 :: c3 :: cs =>
    simp only [show "## ".toList = ['#', '#', ' '] from rfl, beginsWith,
      Bool.and_eq_true, beq_iff_eq] at h
    obtain ⟨h1, h2, h3, -⟩ := h
    exact ⟨cs, by rw [h1, h2, h3]⟩

theorem ignoredHeader_two_hash {l : List Char} (h : isIgnoredSectionHeader l = true) :
    ∃ cs, l = '#' :: '#' :: ' ' :: cs := by
  simp only [isIgnoredSectionHeader, ignoredSectionPrefixes, List.any_cons, List.any_nil,
    Bool.or_eq_true, Bool.or_eq_false_iff] at h
  rcases h with h | h | h
  · exact beginsWith_two_hash
      (beginsWith_of_append "## ".toList "Dependencies".toList h)
  · exact beginsWith_two_hash
      (beginsWith_of_append "## ".toList "Downloads for".toList h)
  · cases h

theorem version_of_ignoredHeader {l : List Char} (h : isIgnoredSectionHeader l = true) :
    changelogVersionLineRegexp l = false := by
  obtain ⟨cs, rfl⟩ := ignoredHeader_two_hash h
  rfl

theorem topTwo_of_ignoredHeader {l : List Char} (h : isIgnoredSectionHeader l = true) :
    isTopTwoHeading l = true := by
  obtain ⟨cs, rfl⟩ := ignoredHeader_two_hash h
  simp [isTopTwoHeading, beginsWith, beginsWith_nil,
    show "## ".toList = ['#', '#', ' '] from rfl]

theorem ignoredHeader_of_version {l : List Char} (h : changelogVersionLineRegexp l = true) :
    isIgnoredSectionHeader l = false := by
  cases hh : isIgnoredSectionHeader l with
  | false => rfl
  | true => rw [version_of_ignoredHeader hh] at h; cases h

/-- Emission facts: an emitted line is the input line itself, it is not an
ignored-section header, and the state after it is `⟨true, false⟩`. -/
theorem processLine_emit {st : FilterState} {l out : List Char}
    (h : (processLine st l).2 = some out) :
    out = l ∧ isIgnoredSectionHeader l = false ∧ (processLine st l).1 = ⟨true, false⟩ := by
  unfold processLine at h ⊢
  split_ifs at h ⊢ with h1 h2 h3
  all_goals simp_all

theorem processLine_snd (st : FilterState) (l : List Char) :
    (processLine st l).2 = none ∨ (processLine st l).2 = some l := by
  unfold processLine
  split
  · exact Or.inl rfl
  · split
    · exact Or.inl rfl
    · split
      · exact Or.inl rfl
      · exact Or.inr rfl

theorem processLine_seeking {st : FilterState} {l : List Char}
    (h1 : st.hasMetTheFirstVersionHeading = false)
    (h2 : changelogVersionLineRegexp l = false) :
    processLine st l = (st, none) := by
  unfold processLine
  rw [h1, h2]
  rfl

theorem processLine_emitting {l : List Char} (h : isIgnoredSectionHeader l = false) :
    processLine ⟨true, false⟩ l = (⟨true, false⟩, some l) := by
  unfold processLine
  rw [h]
  rfl

/-- Inside an ignored section, a line that is neither an ignored-section
header nor a top-two heading is discarded and the section stays open. -/
theorem processLine_ignoring {line : List Char}
    (h1 : isIgnoredSectionHeader line = false) (h2 : isTopTwoHeading line = false) :
    processLine ⟨true, true⟩ line = (⟨true, true⟩, none) := by
  unfold processLine
  rw [h1, h2]
  rfl

/-- Inside an ignored section, an ignored-section header keeps the section
open and is discarded: the header-check comes before the exit-check. -/
theorem processLine_ignoring_header {st : FilterState} {line : List Char}
    (hm : st.hasMetTheFirstVersionHeading = true)
    (h : isIgnoredSectionHeader line = true) :
    processLine st line = (⟨true, true⟩, none) := by
  unfold processLine
  rw [hm, h]
  rfl

/-- Inside an ignored section, a top-two heading that is not itself an
ignored-section header closes the section and is emitted. -/
theorem processLine_ignoring_exit {line : List Char}
    (h1 : isIgnoredSectionHeader line = false) (h2 : isTopTwoHeading line = true) :
    processLine ⟨true, true⟩ line = (⟨true, false⟩, some line) := by
  unfold processLine
  rw [h1, h2]
  rfl

/-- As long as no top-two heading arrives, an ignored section swallows
every line. -/
theorem processLines_ignoring {ls : List (List Char)}
    (h : ∀ l ∈ ls, isTopTwoHeading l = false) :
    processLines ⟨true, true⟩ ls = [] := by
  induction ls with
  | nil => rfl
  | cons l rest ih =>
    have h2 : isTopTwoHeading l = false := h l (List.mem_cons_self l rest)
    have h1 : isIgnoredSectionHeader l = false := by
      cases hh : isIgnoredSectionHeader l with
      | false => rfl
      | true => rw [topTwo_of_ignoredHeader hh] at h2; cases h2
    rw [processLines, processLine_ignoring h1 h2]
    exact ih fun x hx => h x (List.mem_cons_of_mem l hx)

/-- The emitted lines are a subsequence of the lines scanned. -/
theorem processLines_sublist (st : FilterState) (ls : List (List Char)) :
    (processLines st ls).Sublist ls := by
  induction ls generalizing st with
  | nil => exact List.Sublist.refl []
  | cons l rest ih =>
    rw [processLines]
    rcases processLine_snd st l with h | h <;> rw [h]
    · exact (ih _).cons l
    · exact (ih _).cons₂ l

theorem mem_of_processLines {st : FilterState} {ls : List (List Char)} {l : List Char}
    (h : l ∈ processLines st ls) : l ∈ ls :=
  (processLines_sublist st ls).mem h

/-- No emitted line is an ignored-section header, whatever the state. -/
theorem processLines_no_ignoredHeader {st : FilterState} {ls : List (List Char)}
    {l : List Char} (h : l ∈ processLines st ls) : isIgnoredSectionHeader l = false := by
  induction ls generalizing st with
  | nil => cases h
  | cons l0 rest ih =>
    rw [processLines] at h
    rcases processLine_snd st l0 with he | he
    · rw [he] at h
      simp only [Option.toList, List.nil_append] at h
      exact ih h
    · rw [he] at h
      simp only [Option.toList, List.singleton_append] at h
      rcases List.mem_cons.mp h with rfl | h
      · exact (processLine_emit he).2.1
      · exact ih h

/-- From the emitting state, a stream free of ignored-section headers is
emitted in full. -/
theorem processLines_emit_all {ls : List (List Char)}
    (h : ∀ l ∈ ls, isIgnoredSectionHeader l = false) :
    processLines ⟨true, false⟩ ls = ls := by
  induction ls with
  | nil => rfl
  | cons l rest ih =>
    rw [processLines, processLine_emitting (h l (List.mem_cons_self l rest))]
    show l :: processLines ⟨true, false⟩ rest = l :: rest
    rw [ih fun x hx => h x (List.mem_cons_of_mem l hx)]

/-- Lines before the first version heading play no role. -/
theorem processLines_dropWhile (ls : List (List Char)) :
    processLines ⟨false, false⟩ ls
      = processLines ⟨false, false⟩
          (ls.dropWhile fun l => !changelogVersionLineRegexp l) := by
  induction ls with
  | nil => rfl
  | cons l rest ih =>
    cases hv : changelogVersionLineRegexp l with
    | false =>
      rw [processLines, processLine_seeking rfl hv]
      simpa [List.dropWhile_cons, hv] using ih
    | true => simp [List.dropWhile_cons, hv]

/-- The first emitted line is the first version-heading line. -/
theorem processLines_head? (ls : List (List Char)) :
    (processLines ⟨false, false⟩ ls).head? = ls.find? changelogVersionLineRegexp := by
  induction ls with
  | nil => rfl
  | cons l rest ih =>
    cases hv : changelogVersionLineRegexp l with
    | false =>
      rw [processLines, processLine_seeking rfl hv, List.find?]
      simpa [hv] using ih
    | true =>
      have hni : isIgnoredSectionHeader l = false := ignoredHeader_of_version hv
      have : processLine ⟨false, false⟩ l = (⟨true, false⟩, some l) := by
        unfold processLine
        rw [hni, hv]
        rfl
      rw [processLines, this, List.find?]
      simp [hv]

theorem processLines_append (st : FilterState) (ls ms : List (List Char)) :
    processLines st (ls ++ ms)
      = processLines st ls ++ processLines (stateAfter st ls) ms := by
  induction ls generalizing st with
  | nil => rfl
  | cons l rest ih =>
    rw [List.cons_append, processLines, processLines, stateAfter, ih, List.append_assoc]

/-! Helper lemmas about line splitting and joining. -/

theorem splitLines_ne_nil (s : List Char) : splitLines s ≠ [] := by
  induction s with
  | nil => simp [splitLines]
  | cons c rest ih =>
    rw [splitLines]
    split
    · simp
    · cases h : splitLines rest <;> simp

theorem not_newline_mem_splitLines {s l : List Char} (h : l ∈ splitLines s) : '\n' ∉ l := by
  induction s generalizing l with
  | nil =>
    simp only [splitLines, List.mem_singleton] at h
    simp [h]
  | cons c rest ih =>
    rw [splitLines] at h
    split at h
    · rcases List.mem_cons.mp h with rfl | h
      · simp
      · exact ih h
    · rename_i hc
      cases hs : splitLines rest with
      | nil => exact absurd hs (splitLines_ne_nil rest)
      | cons l0 ls0 =>
        rw [hs] at h
        rcases List.mem_cons.mp h with rfl | h
        · intro hmem
          rcases List.mem_cons.mp hmem with h1 | h1
          · rw [h1] at hc; simp at hc
          · exact ih (hs ▸ List.mem_cons_self l0 ls0) h1
        · exact ih (hs ▸ List.mem_cons_of_mem l0 h)

theorem splitLines_append_newline {l r : List Char} (h : '\n' ∉ l) :
    splitLines (l ++ '\n' :: r) = l :: splitLines r := by
  induction l with
  | nil => rfl
  | cons c cs ih =>
    have hc : ¬ c = '\n' := fun hh => h (hh ▸ List.mem_cons_self c cs)
    rw [List.cons_append, splitLines]
    have hcs := ih fun hm => h (List.mem_cons_of_mem c hm)
    simp only [beq_iff_eq, hc, if_false, hcs]

theorem splitLines_flatten {E : List (List Char)} (h : ∀ l ∈ E, '\n' ∉ l) :
    splitLines ((E.map (fun l => l ++ ['\n'])).flatten) = E ++ [[]] := by
  induction E with
  | nil => rfl
  | cons e rest ih =>
    have he : '\n' ∉ e := h e (List.mem_cons_self e rest)
    rw [List.map_cons, List.flatten_cons, List.append_assoc, List.singleton_append,
      splitLines_append_newline he, ih fun x hx => h x (List.mem_cons_of_mem e hx),
      List.cons_append]

theorem splitLines_concat_newline (t : List Char) :
    splitLines (t ++ ['\n']) = splitLines t ++ [[]] := by
  induction t with
  | nil => rfl
  | cons c rest ih =>
    rw [List.cons_append, splitLines, splitLines]
    split
    · rw [ih, List.cons_append]
    · cases hs : splitLines rest with
      | nil => exact absurd hs (splitLines_ne_nil rest)
      | cons l0 ls0 =>
        rw [hs] at ih
        rw [ih]
        rfl

theorem processLine_first_version {l : List Char} (hv : changelogVersionLineRegexp l = true) :
    processLine ⟨false, false⟩ l = (⟨true, false⟩, some l) := by
  unfold processLine
  rw [hv, ignoredHeader_of_version hv]
  rfl

/-- The lines of the filter output are the emitted lines followed by one
empty segment coming from the final line terminator. -/
theorem splitLines_keepOnlyChanges (t : List Char) :
    splitLines (keepOnlyChanges t)
      = processLines ⟨false, false⟩ (splitLines t) ++ [[]] := by
  unfold keepOnlyChanges
  exact splitLines_flatten fun l hl =>
    not_newline_mem_splitLines (mem_of_processLines hl)

/-- Refiltering: if the first pass emitted anything, the first pass output
restarts at its own first line (a version heading), contains no
ignored-section header, and so is emitted in full by the second pass,
together with the empty segment created by the last terminator. -/
theorem keepOnlyChanges_refilter {t : List Char}
    (h : (splitLines (keepOnlyChanges t)).any changelogVersionLineRegexp = true) :
    keepOnlyChanges (keepOnlyChanges t) = keepOnlyChanges t ++ ['\n'] := by
  cases hE : processLines ⟨false, false⟩ (splitLines t) with
  | nil =>
    exfalso
    have h0 : keepOnlyChanges t = [] := by
      unfold keepOnlyChanges
      rw [hE]
      rfl
    rw [h0] at h
    exact absurd h (by decide)
  | cons e0 es =>
    have hfind : (splitLines t).find? changelogVersionLineRegexp = some e0 := by
      rw [← processLines_head?, hE]
      rfl
    have hv : changelogVersionLineRegexp e0 = true := List.find?_some hfind
    have hall : ∀ l ∈ es ++ [[]], isIgnoredSectionHeader l = false := by
      intro l hl
      rcases List.mem_append.mp hl with hl | hl
      · have hmem : l ∈ processLines (⟨false, false⟩ : FilterState) (splitLines t) := by
          rw [hE]
          exact List.mem_cons_of_mem e0 hl
        exact processLines_no_ignoredHeader hmem
      · rw [List.mem_singleton.mp hl]
        rfl
    have hsecond : processLines ⟨false, false⟩ (splitLines (keepOnlyChanges t))
        = (e0 :: es) ++ [[]] := by
      rw [splitLines_keepOnlyChanges, hE, List.cons_append, processLines,
        processLine_first_version hv]
      show e0 :: processLines ⟨true, false⟩ (es ++ [[]]) = e0 :: (es ++ [[]])
      rw [processLines_emit_all hall]
    have hout : keepOnlyChanges t = ((e0 :: es).map (fun l => l ++ ['\n'])).flatten := by
      unfold keepOnlyChanges
      rw [hE]
    calc keepOnlyChanges (keepOnlyChanges t)
        = ((processLines ⟨false, false⟩ (splitLines (keepOnlyChanges t))).map
            (fun l => l ++ ['\n'])).flatten := rfl
      _ = (((e0 :: es) ++ [[]]).map (fun l => l ++ ['\n'])).flatten := by rw [hsecond]
      _ = keepOnlyChanges t ++ ['\n'] := by
            rw [List.map_append, List.flatten_append, hout]
            rfl

/-- With no version heading anywhere, nothing is ever emitted. -/
theorem keepOnlyChanges_no_version {t : List Char}
    (h : ∀ l ∈ splitLines t, changelogVersionLineRegexp l = false) :
    keepOnlyChanges t = [] := by
  unfold keepOnlyChanges
  rw [processLines_dropWhile,
    List.dropWhile_eq_nil_iff.mpr fun x hx => by rw [h x hx]; rfl]
  rfl

theorem flatten_map_newline_ends (E : List (List Char)) :
    (E.map (fun l => l ++ ['\n'])).flatten = []
      ∨ ∃ s, (E.map (fun l => l ++ ['\n'])).flatten = s ++ ['\n'] := by
  rcases List.eq_nil_or_concat E with rfl | ⟨L, b, rfl⟩
  · exact Or.inl rfl
  · refine Or.inr ⟨(L.map (fun l => l ++ ['\n'])).flatten ++ b, ?_⟩
    rw [List.concat_eq_append, List.map_append, List.flatten_append]
    simp [List.append_assoc]

/-! Helper lemmas characterizing the version-heading pattern. -/

theorem takeWhile_digits_append {ds : List Char} (r : List Char)
    (hall : ∀ c ∈ ds, c.isDigit = true) :
    (ds ++ '.' :: r).takeWhile Char.isDigit = ds
      ∧ (ds ++ '.' :: r).dropWhile Char.isDigit = '.' :: r := by
  induction ds with
  | nil => exact ⟨rfl, rfl⟩
  | cons d ds ih =>
    have hd : d.isDigit = true := hall d (List.mem_cons_self d ds)
    have := ih fun c hc => hall c (List.mem_cons_of_mem d hc)
    rw [List.cons_append, List.takeWhile_cons, List.dropWhile_cons, hd]
    simp only [if_true, List.cons.injEq, true_and]
    exact this

/-- The source regexp `^# v\d\.\d+\.\d+`, declaratively: a literal `"# v"`,
one digit, a dot, a nonempty digit run, a dot, a digit, and then anything. -/
theorem changelogVersionLineRegexp_iff (line : List Char) :
    changelogVersionLineRegexp line = true ↔
      ∃ d ds c t, line = '#' :: ' ' :: 'v' :: d :: '.' :: (ds ++ '.' :: c :: t)
        ∧ d.isDigit = true ∧ ds ≠ [] ∧ (∀ x ∈ ds, x.isDigit = true)
        ∧ c.isDigit = true := by
  constructor
  · intro h
    unfold changelogVersionLineRegexp at h
    split at h
    · rename_i d rest
      rw [Bool.and_eq_true] at h
      obtain ⟨hd, hm⟩ := h
      unfold matchMinorPatch at hm
      rw [Bool.and_eq_true] at hm
      obtain ⟨hne, hm2⟩ := hm
      split at hm2
      · rename_i c l2 heq
        refine ⟨d, rest.takeWhile Char.isDigit, c, l2, ?_, hd, ?_, ?_, hm2⟩
        · rw [← heq]
          rw [List.takeWhile_append_dropWhile]
        · intro h0
          rw [h0] at hne
          cases hne
        · exact fun x hx => List.mem_takeWhile_imp hx
      · cases hm2
    · cases h
  · rintro ⟨d, ds, c, t, rfl, hd, hne, hall, hc⟩
    obtain ⟨htake, hdrop⟩ := takeWhile_digits_append (c :: t) hall
    show (d.isDigit && matchMinorPatch (ds ++ '.' :: c :: t)) = true
    unfold matchMinorPatch
    rw [hd, htake, hdrop]
    cases ds with
    | nil => cases hne rfl
    | cons x xs => simp [hc]

/-! Helper lemmas about the HTML extraction pass. -/

theorem matchesDataTextSuffix_pruneNode (suf : List Char) (q : HtmlNode → Bool)
    (n : HtmlNode) :
    matchesDataTextSuffix suf (pruneNode q n) = matchesDataTextSuffix suf n := by
  cases n <;> rfl

theorem versionUpdatesSel_pruneNode (q : HtmlNode → Bool) (n : HtmlNode) :
    versionUpdatesSel (pruneNode q n) = versionUpdatesSel n :=
  matchesDataTextSuffix_pruneNode _ q n

theorem securityUpdatesSel_pruneNode (q : HtmlNode → Bool) (n : HtmlNode) :
    securityUpdatesSel (pruneNode q n) = securityUpdatesSel n :=
  matchesDataTextSuffix_pruneNode _ q n

/-- Pruning can only lose `q`-matches (for a `q` that survives pruning of
the nodes it accepts), never create them. -/
theorem forestAny_pruneForest {p q : HtmlNode → Bool}
    (hq : ∀ m, q (pruneNode p m) = true → q m = true) :
    ∀ F, forestAny q (pruneForest p F) = true → forestAny q F = true
  | .nil, h => h
  | .cons n f, h => by
    rw [pruneForest] at h
    rw [forestAny, Bool.or_eq_true]
    split at h
    · exact Or.inr (forestAny_pruneForest hq f h)
    · rw [forestAny, Bool.or_eq_true] at h
      rcases h with h | h
      · exact Or.inl (hq n h)
      · exact Or.inr (forestAny_pruneForest hq f h)

theorem childMatches_pruneNode {p q : HtmlNode → Bool}
    (hq : ∀ m, q (pruneNode p m) = true → q m = true) :
    ∀ m, childMatches q (pruneNode p m) = true → childMatches q m = true := by
  intro m h
  cases m with
  | text s => exact h
  | elem t a cs => exact forestAny_pruneForest hq cs h

theorem hasMatchingGrandchild_pruneNode {p q : HtmlNode → Bool}
    (hq : ∀ m, q (pruneNode p m) = true → q m = true) :
    ∀ m, hasMatchingGrandchild q (pruneNode p m) = true
      → hasMatchingGrandchild q m = true := by
  intro m h
  cases m with
  | text s => exact h
  | elem t a cs =>
    exact forestAny_pruneForest (childMatches_pruneNode hq) cs h

mutual
/-- Every subtree surviving below a kept node is the pruned form of an
original subtree. -/
theorem mem_subtrees_pruneNode (p : HtmlNode → Bool) :
    ∀ n : HtmlNode, ∀ m ∈ subtrees (pruneNode p n),
      ∃ m2 ∈ subtrees n, m = pruneNode p m2
  | .text s, m, hm => by
    rw [pruneNode, subtrees] at hm
    exact ⟨.text s, List.mem_singleton.mpr rfl, (List.mem_singleton.mp hm).trans rfl⟩
  | .elem t a cs, m, hm => by
    rw [pruneNode, subtrees] at hm
    rcases List.mem_cons.mp hm with rfl | hm
    · exact ⟨.elem t a cs, List.mem_cons_self _ _, rfl⟩
    · obtain ⟨m2, hm2, heq⟩ := mem_subtreesF_pruneForest p cs m hm
      exact ⟨m2, List.mem_cons_of_mem _ hm2, heq⟩
/-- Every subtree of the pruned forest is the pruned form of an original
subtree. -/
theorem mem_subtreesF_pruneForest (p : HtmlNode → Bool) :
    ∀ F : HtmlForest, ∀ m ∈ subtreesF (pruneForest p F),
      ∃ m2 ∈ subtreesF F, m = pruneNode p m2
  | .nil, m, hm => by cases hm
  | .cons n f, m, hm => by
    rw [pruneForest] at hm
    split at hm
    · obtain ⟨m2, hm2, heq⟩ := mem_subtreesF_pruneForest p f m hm
      exact ⟨m2, by rw [subtreesF]; exact List.mem_append_right _ hm2, heq⟩
    · rw [subtreesF] at hm
      rcases List.mem_append.mp hm with hm | hm
      · obtain ⟨m2, hm2, heq⟩ := mem_subtrees_pruneNode p n m hm
        exact ⟨m2, by rw [subtreesF]; exact List.mem_append_left _ hm2, heq⟩
      · obtain ⟨m2, hm2, heq⟩ := mem_subtreesF_pruneForest p f m hm
        exact ⟨m2, by rw [subtreesF]; exact List.mem_append_right _ hm2, heq⟩
end

mutual
/-- Below a kept node (one that is not the parent-of-parent of any
`p`-match), no surviving subtree is the parent-of-parent of a `p`-match. -/
theorem subtrees_pruneNode_no_mg {p : HtmlNode → Bool}
    (hp : ∀ m, p (pruneNode p m) = p m) :
    ∀ n : HtmlNode, hasMatchingGrandchild p n = false →
      ∀ m ∈ subtrees (pruneNode p n), hasMatchingGrandchild p m = false
  | .text s, h, m, hm => by
    rw [pruneNode, subtrees] at hm
    rw [List.mem_singleton.mp hm]
    exact h
  | .elem t a cs, h, m, hm => by
    rw [pruneNode, subtrees] at hm
    rcases List.mem_cons.mp hm with rfl | hm
    · cases hmg : hasMatchingGrandchild p (.elem t a (pruneForest p cs)) with
      | false => rfl
      | true =>
        have : hasMatchingGrandchild p (.elem t a cs) = true :=
          hasMatchingGrandchild_pruneNode (fun m hq => by rwa [hp m] at hq)
            (.elem t a cs) hmg
        rw [this] at h
        cases h
    · exact subtreesF_pruneForest_no_mg hp cs m hm
/-- After pruning with `p`, no subtree anywhere in the forest is the
parent-of-parent of a `p`-match: the deleted-subtree pattern does not
survive its own removal pass. -/
theorem subtreesF_pruneForest_no_mg {p : HtmlNode → Bool}
    (hp : ∀ m, p (pruneNode p m) = p m) :
    ∀ F : HtmlForest, ∀ m ∈ subtreesF (pruneForest p F),
      hasMatchingGrandchild p m = false
  | .nil, m, hm => by cases hm
  | .cons n f, m, hm => by
    rw [pruneForest] at hm
    split at hm
    · exact subtreesF_pruneForest_no_mg hp f m hm
    · rename_i hmg
      rw [subtreesF] at hm
      rcases List.mem_append.mp hm with hm | hm
      · exact subtrees_pruneNode_no_mg hp n (Bool.not_eq_true _ ▸ eq_false_of_ne_true hmg) m hm
      · exact subtreesF_pruneForest_no_mg hp f m hm
end

mutual
/-- Every node found below `n` is a subtree of `n`. -/
theorem findNodes_mem_subtrees (q : HtmlNode → Bool) :
    ∀ n : HtmlNode, ∀ m ∈ findNodes q n, m ∈ subtrees n
  | .text s, m, hm => by
    rw [findNodes] at hm
    rw [subtrees]
    split at hm
    · exact hm
    · cases hm
  | .elem t a cs, m, hm => by
    rw [findNodes] at hm
    rw [subtrees]
    rcases List.mem_append.mp hm with hm | hm
    · split at hm
      · exact List.mem_cons.mpr (Or.inl (List.mem_singleton.mp hm))
      · cases hm
    · exact List.mem_cons_of_mem _ (findForest_mem_subtreesF q cs m hm)
/-- Every node found in a forest is a subtree of the forest: the extractor
reads text only out of nodes actually present in the pruned document. -/
theorem findForest_mem_subtreesF (q : HtmlNode → Bool) :
    ∀ F : HtmlForest, ∀ m ∈ findForest q F, m ∈ subtreesF F
  | .cons n f, m, hm => by
    rw [findForest] at hm
    rw [subtreesF]
    rcases List.mem_append.mp hm with hm | hm
    · exact List.mem_append_left _ (findNodes_mem_subtrees q n m hm)
    · exact List.mem_append_right _ (findForest_mem_subtreesF q f m hm)
end

theorem self_mem_subtrees (n : HtmlNode) : n ∈ subtrees n := by
  cases n <;> simp [subtrees]

mutual
/-- A node below which no subtree is the parent-of-parent of a `p`-match
is left untouched by the exclusion pass. -/
theorem pruneNode_id (p : HtmlNode → Bool) :
    ∀ n : HtmlNode, (∀ m ∈ subtrees n, hasMatchingGrandchild p m = false) →
      pruneNode p n = n
  | .text s, _ => rfl
  | .elem t a cs, h => by
    rw [pruneNode, pruneForest_id p cs fun m hm =>
      h m (by rw [subtrees]; exact List.mem_cons_of_mem _ hm)]
/-- When no subtree of the forest is the parent-of-parent of a `p`-match
(every anchor has fewer than two proper ancestors), the exclusion rule
does not apply and deletes nothing. -/
theorem pruneForest_id (p : HtmlNode → Bool) :
    ∀ F : HtmlForest, (∀ m ∈ subtreesF F, hasMatchingGrandchild p m = false) →
      pruneForest p F = F
  | .nil, _ => rfl
  | .cons n f, h => by
    have hn : hasMatchingGrandchild p n = false :=
      h n (by rw [subtreesF]; exact List.mem_append_left _ (self_mem_subtrees n))
    rw [pruneForest, hn]
    show HtmlForest.cons (pruneNode p n) (pruneForest p f) = .cons n f
    rw [pruneNode_id p n fun m hm =>
        h m (by rw [subtreesF]; exact List.mem_append_left _ hm),
      pruneForest_id p f fun m hm =>
        h m (by rw [subtreesF]; exact List.mem_append_right _ hm)]
end

/-! The claims. -/

/-- C1: once the filter is inside an ignored subsection it emits nothing -
deeper headings such as `### foo` and ordinary lines included - until a
line opening with one or two marker characters (`"# "` or `"## "`)
arrives; that line is evaluated fresh with the ignored-prefix check taking
precedence over the exit check, and is emitted when it is ordinary
content.  Both concrete scenarios of the spec hold verbatim. -/
theorem c1_ignored_subsection_scan :
    (∀ line : List Char, isIgnoredSectionHeader line = false →
        isTopTwoHeading line = false →
        processLine ⟨true, true⟩ line = (⟨true, true⟩, none))
    ∧ (∀ ls : List (List Char), (∀ l ∈ ls, isTopTwoHeading l = false) →
        processLines ⟨true, true⟩ ls = [])
    ∧ (∀ (st : FilterState) (line : List Char),
        st.hasMetTheFirstVersionHeading = true → isIgnoredSectionHeader line = true →
        processLine st line = (⟨true, true⟩, none))
    ∧ (∀ line : List Char, isIgnoredSectionHeader line = false →
        isTopTwoHeading line = true →
        processLine ⟨true, true⟩ line = (⟨true, false⟩, some line))
    ∧ processLines ⟨false, false⟩
        (["# v1.0.0", "## Dependencies", "### foo", "- bar", "## Changes", "ok"].map
          String.toList)
        = ["# v1.0.0", "## Changes", "ok"].map String.toList
    ∧ processLines ⟨false, false⟩
        (["intro", "# v1.2.3", "## Dependencies", "bump foo", "## Changes", "fix bar",
          "# v1.2.2", "fix baz"].map String.toList)
        = ["# v1.2.3", "## Changes", "fix bar", "# v1.2.2", "fix baz"].map String.toList :=
  ⟨fun _ h1 h2 => processLine_ignoring h1 h2,
   fun _ h => processLines_ignoring h,
   fun _ _ hm h => processLine_ignoring_header hm h,
   fun _ h1 h2 => processLine_ignoring_exit h1 h2,
   by decide, by decide⟩

theorem c1_witness :
    processLine ⟨true, true⟩ "### foo".toList = (⟨true, true⟩, none)
    ∧ processLines ⟨true, true⟩ ["- bar".toList, "baz".toList] = []
    ∧ processLine ⟨true, false⟩ "## Downloads for v1.30".toList = (⟨true, true⟩, none)
    ∧ processLine ⟨true, true⟩ "## Changes".toList
        = (⟨true, false⟩, some "## Changes".toList) :=
  ⟨c1_ignored_subsection_scan.1 _ (by decide) (by decide),
   c1_ignored_subsection_scan.2.1 _ (by decide),
   c1_ignored_subsection_scan.2.2.1 ⟨true, false⟩ _ rfl (by decide),
   c1_ignored_subsection_scan.2.2.2.1 _ (by decide) (by decide)⟩

/-- C2 fails as stated: the source regexp is `^# v\d\.\d+\.\d+`, not
`^#\s*v?\d+\.\d+\.\d+`.  At `"# v10.1.0"` (multi-digit first component),
`"# 1.2.3"` (missing `v`) and `"#v1.2.3"` (zero whitespace) the spec
pattern accepts while the code rejects. -/
theorem c2_counterexample :
    specVersionLineRegexp "# v10.1.0".toList = true
    ∧ changelogVersionLineRegexp "# v10.1.0".toList = false
    ∧ specVersionLineRegexp "# 1.2.3".toList = true
    ∧ changelogVersionLineRegexp "# 1.2.3".toList = false
    ∧ specVersionLineRegexp "#v1.2.3".toList = true
    ∧ changelogVersionLineRegexp "#v1.2.3".toList = false := by decide

/-- C2 (amended): the version-heading predicate accepts a line exactly when
it starts with the literal `"# v"`, then a single digit, a dot, a nonempty
digit run, a dot, and at least one more digit - the `v` and the single
space are mandatory and the first component is one digit. -/
theorem c2_version_heading_pattern (line : List Char) :
    changelogVersionLineRegexp line = true ↔
      ∃ d ds c t, line = '#' :: ' ' :: 'v' :: d :: '.' :: (ds ++ '.' :: c :: t)
        ∧ d.isDigit = true ∧ ds ≠ [] ∧ (∀ x ∈ ds, x.isDigit = true)
        ∧ c.isDigit = true :=
  changelogVersionLineRegexp_iff line

theorem c2_witness : changelogVersionLineRegexp "# v1.23.4x".toList = true :=
  (c2_version_heading_pattern _).mpr
    ⟨'1', ['2', '3'], '4', ['x'], by decide, by decide, by decide, by decide, by decide⟩

/-- C3 fails as stated: refiltering appends one extra newline, because the
final terminator of the output splits into an extra empty segment that the
second pass emits as a bare `"\n"`.  At `"# v1.2.3\nfoo"` the output
contains a version heading, yet refiltering changes it. -/
theorem c3_counterexample :
    (splitLines (keepOnlyChanges "# v1.2.3\nfoo".toList)).any
        changelogVersionLineRegexp = true
    ∧ ¬ keepOnlyChanges (keepOnlyChanges "# v1.2.3\nfoo".toList)
        = keepOnlyChanges "# v1.2.3\nfoo".toList := by decide

/-- C3 (amended): when the filtered output still contains a version
heading, refiltering reproduces it exactly, except that the empty final
segment created by the last terminator is emitted as one extra `"\n"`:
`filterChangelog (filterChangelog t) = filterChangelog t ++ "\n"`. -/
theorem c3_refilter_appends_newline (t : List Char)
    (h : (splitLines (keepOnlyChanges t)).any changelogVersionLineRegexp = true) :
    keepOnlyChanges (keepOnlyChanges t) = keepOnlyChanges t ++ ['\n'] :=
  keepOnlyChanges_refilter h

theorem c3_witness :
    keepOnlyChanges (keepOnlyChanges "# v1.2.2\nbar".toList)
      = keepOnlyChanges "# v1.2.2\nbar".toList ++ ['\n'] :=
  c3_refilter_appends_newline _ (by decide)

/-- C4: no line of the filter output starts with an ignored-subsection
prefix, and a line starting with such a prefix is never emitted, whatever
the state it is met in. -/
theorem c4_no_ignored_header_in_output :
    (∀ t : List Char, ∀ l ∈ splitLines (keepOnlyChanges t),
        isIgnoredSectionHeader l = false)
    ∧ ∀ (st : FilterState) (line : List Char), isIgnoredSectionHeader line = true →
        (processLine st line).2 = none := by
  constructor
  · intro t l hl
    rw [splitLines_keepOnlyChanges] at hl
    rcases List.mem_append.mp hl with hl | hl
    · exact processLines_no_ignoredHeader hl
    · rw [List.mem_singleton.mp hl]
      rfl
  · intro st line h
    unfold processLine
    by_cases h1 : (!st.hasMetTheFirstVersionHeading && !changelogVersionLineRegexp line) = true
    · rw [if_pos h1]
    · rw [if_neg h1, if_pos h]

theorem c4_witness :
    isIgnoredSectionHeader "ok".toList = false
    ∧ (processLine ⟨true, false⟩ "## Dependencies".toList).2 = none :=
  ⟨c4_no_ignored_header_in_output.1 "# v1.2.3\n## Dependencies\n## Changes\nok".toList
      "ok".toList (by decide),
   c4_no_ignored_header_in_output.2 ⟨true, false⟩ _ (by decide)⟩

/-- C5: when some input line matches the version-heading pattern, the first
emitted line is the first matching input line, and the lines before it
contribute nothing: the scan of the full input equals the scan of the
input with the non-matching leading lines removed. -/
theorem c5_first_emitted_line (t : List Char)
    (_h : (splitLines t).any changelogVersionLineRegexp = true) :
    (processLines ⟨false, false⟩ (splitLines t)).head?
        = (splitLines t).find? changelogVersionLineRegexp
      ∧ processLines ⟨false, false⟩ (splitLines t)
        = processLines ⟨false, false⟩
            ((splitLines t).dropWhile fun l => !changelogVersionLineRegexp l) :=
  ⟨processLines_head? _, processLines_dropWhile _⟩

theorem c5_witness :
    (processLines ⟨false, false⟩ (splitLines "a\n# v2.3.4\nb".toList)).head?
      = some "# v2.3.4".toList :=
  (c5_first_emitted_line "a\n# v2.3.4\nb".toList (by decide)).1.trans (by decide)

/-- C6: the output of the extractor is drawn only from nodes of the pruned
document (every found release node is a surviving subtree), and no
surviving subtree anywhere is the parent-of-parent of an exclusion anchor
- deleted subtrees are gone, release blocks inside them included.  The
concrete scenario of the spec holds: the release node contained in the deleted
grandparent contributes nothing, its text does not occur in the output. -/
theorem c6_no_deleted_text :
    (∀ doc : HtmlForest, ∀ m ∈ subtreesF (pruneAll doc),
        hasMatchingGrandchild versionUpdatesSel m = false
          ∧ hasMatchingGrandchild securityUpdatesSel m = false)
    ∧ (∀ doc : HtmlForest, ∀ m ∈ findForest releasesSel (pruneAll doc),
        m ∈ subtreesF (pruneAll doc))
    ∧ releasesSel exampleReleaseB = true
    ∧ getGkeReleaseNotes exampleDoc = "AAA".toList
    ∧ containsSub "BBB".toList (getGkeReleaseNotes exampleDoc) = false := by
  refine ⟨?_, ?_, by decide, by decide, by decide⟩
  · intro doc m hm
    constructor
    · obtain ⟨m2, hm2, rfl⟩ := mem_subtreesF_pruneForest securityUpdatesSel _ m hm
      have h2 : hasMatchingGrandchild versionUpdatesSel m2 = false :=
        subtreesF_pruneForest_no_mg
          (fun m3 => versionUpdatesSel_pruneNode _ m3) doc m2 hm2
      cases hmg : hasMatchingGrandchild versionUpdatesSel
          (pruneNode securityUpdatesSel m2) with
      | false => rfl
      | true =>
        rw [hasMatchingGrandchild_pruneNode
          (fun m3 hq => by rwa [versionUpdatesSel_pruneNode _ m3] at hq)
          m2 hmg] at h2
        cases h2
    · exact subtreesF_pruneForest_no_mg
        (fun m3 => securityUpdatesSel_pruneNode _ m3) _ m hm
  · intro doc m hm
    exact findForest_mem_subtreesF _ _ m hm

theorem c6_witness :
    (hasMatchingGrandchild versionUpdatesSel exampleReleaseA = false
      ∧ hasMatchingGrandchild securityUpdatesSel exampleReleaseA = false)
    ∧ exampleReleaseA ∈ subtreesF (pruneAll exampleDoc) :=
  ⟨c6_no_deleted_text.1 exampleDoc exampleReleaseA (List.mem_cons_self _ _),
   c6_no_deleted_text.2.1 exampleDoc exampleReleaseA (List.mem_cons_self _ _)⟩

/-- C9: the extractor is total with no internal failure: when no subtree
is the parent-of-parent of an anchor (every anchor has fewer than two
proper ancestors), the exclusion pass deletes nothing, and when no release
block remains the result is the empty string, a valid non-error value. -/
theorem c9_no_internal_error :
    (∀ (p : HtmlNode → Bool) (doc : HtmlForest),
        (∀ m ∈ subtreesF doc, hasMatchingGrandchild p m = false) →
          pruneForest p doc = doc)
    ∧ (∀ doc : HtmlForest, findForest releasesSel (pruneAll doc) = [] →
        getGkeReleaseNotes doc = [])
    ∧ pruneAll shallowAnchorDoc = shallowAnchorDoc
    ∧ getGkeReleaseNotes noReleasesDoc = [] := by
  refine ⟨fun p doc h => pruneForest_id p doc h, ?_, rfl, rfl⟩
  intro doc h
  unfold getGkeReleaseNotes
  rw [h]
  rfl

theorem c9_witness :
    pruneForest versionUpdatesSel shallowAnchorDoc = shallowAnchorDoc
    ∧ getGkeReleaseNotes noReleasesDoc = [] :=
  ⟨c9_no_internal_error.1 versionUpdatesSel shallowAnchorDoc (by decide),
   c9_no_internal_error.2.1 noReleasesDoc rfl⟩

/-- C7: the output is the emitted lines, each an input line reproduced
verbatim with a terminator appended, and the emitted lines are a
subsequence of the input lines in their original order. -/
theorem c7_output_subsequence (t : List Char) :
    (processLines ⟨false, false⟩ (splitLines t)).Sublist (splitLines t)
    ∧ keepOnlyChanges t
        = ((processLines ⟨false, false⟩ (splitLines t)).map
            (fun l => l ++ ['\n'])).flatten :=
  ⟨processLines_sublist _ _, rfl⟩

/-- C8: with no version-heading line anywhere in the input, the filter
returns the empty string; it is a total function on all inputs. -/
theorem c8_no_version_empty_output (t : List Char)
    (h : ∀ l ∈ splitLines t, changelogVersionLineRegexp l = false) :
    keepOnlyChanges t = [] :=
  keepOnlyChanges_no_version h

theorem c8_witness : keepOnlyChanges "hello\nworld".toList = [] :=
  c8_no_version_empty_output "hello\nworld".toList (by decide)

/-- C10: every emitted line, the last one included, carries a `"\n"`
terminator, so the output is empty or ends with `"\n"`; and an input
ending with `"\n"` reached in the emitting state yields one extra bare
`"\n"` for the empty final split segment. -/
theorem c10_trailing_newline (t : List Char) :
    (keepOnlyChanges t = [] ∨ ∃ s, keepOnlyChanges t = s ++ ['\n'])
    ∧ (stateAfter ⟨false, false⟩ (splitLines t) = ⟨true, false⟩ →
        keepOnlyChanges (t ++ ['\n']) = keepOnlyChanges t ++ ['\n']) := by
  constructor
  · exact flatten_map_newline_ends _
  · intro hst
    unfold keepOnlyChanges
    rw [splitLines_concat_newline, processLines_append, hst, List.map_append,
      List.flatten_append]
    rfl

theorem c10_witness :
    keepOnlyChanges ("# v1.2.3".toList ++ ['\n'])
      = keepOnlyChanges "# v1.2.3".toList ++ ['\n'] :=
  (c10_trailing_newline "# v1.2.3".toList).2 (by decide)

end GkeMcp
